import Mathlib

/-!
# Verification of the incident-parser pipeline

A shallow embedding of the string-processing core of the repository:

* `groq_client.py` — `post_process_data`, `simple_parse`,
  `call_groq_api_structured` (the model-calling strategies are external
  network effects, so their outcomes appear as parameters);
* `json_utils.py` — `clean_json_response`, the `Impact_Count` coercion of
  `parse_and_validate`, and `extract_incident_data`.

Python strings are modelled as `List Char` (wrapped in `String` at the
interfaces).  Python `re`/`json` behaviour is embedded by executable Lean
functions that mirror the exact patterns used by the source.  Dictionary
values relevant to the pipeline are strings and integers, so JSON-dict
fields are modelled by the sum type `JVal`; the pipeline only ever reads or
writes the five schema keys plus the `_metadata` marker, so a dict is
modelled as a record of optional fields.
-/

namespace IncidentParser

/-- Characters treated as whitespace by Python's `str.strip()` (ASCII part). -/
def pyWsChar (c : Char) : Bool :=
  c = ' ' || c = '\t' || c = '\n' || c = '\r' || c = Char.ofNat 11 || c = Char.ofNat 12

/-- Left brace character, `'\x7b'`. -/
def lbrace : Char := Char.ofNat 123

/-- Right brace character, `'\x7d'`. -/
def rbrace : Char := Char.ofNat 125

/-- Backtick character, `'\x60'`. -/
def btick : Char := Char.ofNat 96

/-- Drop trailing whitespace: reverse, drop leading, reverse. -/
def dropTrail (s : List Char) : List Char :=
  (s.reverse.dropWhile pyWsChar).reverse

/-- Python `str.strip()` on char lists. -/
def stripList (s : List Char) : List Char :=
  dropTrail (s.dropWhile pyWsChar)

/-- Python `str.strip()`. -/
def pyStrip (s : String) : String :=
  ⟨stripList s.toList⟩

/-- `leadsWith pat s` holds when `pat` occurs at the head of `s`
(Python `s.startswith(pat)`). -/
def leadsWith : List Char → List Char → Bool
  | [], _ => true
  | _ :: _, [] => false
  | p :: ps, c :: cs => p = c && leadsWith ps cs

/-- `hasSeg pat s` holds when `pat` occurs as a contiguous segment of `s`
(Python `pat in s`). -/
def hasSeg (pat : List Char) : List Char → Bool
  | [] => leadsWith pat []
  | c :: cs => leadsWith pat (c :: cs) || hasSeg pat cs

/-- Fueled worker for `replaceList`.  Every step consumes at least one
character and exactly one unit of fuel, so fuel equal to the input length
never runs out; the fuel-0 clause is unreachable then. -/
def replaceListF (pat : List Char) : Nat → List Char → List Char
  | _, [] => []
  | 0, s => s
  | fuel + 1, c :: cs =>
    if pat ≠ [] ∧ leadsWith pat (c :: cs) then
      replaceListF pat fuel ((c :: cs).drop pat.length)
    else
      c :: replaceListF pat fuel cs

/-- Python `s.replace(pat, "")`: delete every non-overlapping occurrence of
`pat`, scanning left to right. -/
def replaceList (pat : List Char) (s : List Char) : List Char :=
  replaceListF pat s.length s

/-- Python `s.replace(pat, "")` on strings. -/
def pyReplaceDel (s pat : String) : String :=
  ⟨replaceList pat.toList s.toList⟩

/-- Index of the first occurrence of character `c` (Python `s.find(c)`),
`none` when absent. -/
def idxOfChar (c : Char) : List Char → Option Nat
  | [] => none
  | d :: ds => if d = c then some 0 else (idxOfChar c ds).map (· + 1)

/-- Index of the last occurrence of character `c` (Python `s.rfind(c)`). -/
def rIdxOfChar (c : Char) (s : List Char) : Option Nat :=
  (idxOfChar c s.reverse).map (fun k => s.length - 1 - k)

/-- Numeric value of a list of decimal digits (Python `int` on a digit run). -/
def digitsToNat (ds : List Char) : Nat :=
  ds.foldl (fun a c => a * 10 + (c.toNat - 48)) 0

/-- The first maximal run of decimal digits in the text, as a number:
the value of `re.findall(r'\d+', s)[0]` when it exists (Python `\d` also
matches non-ASCII decimal digits; the model restricts to ASCII). -/
def firstDigitRun : List Char → Option Nat
  | [] => none
  | c :: cs =>
    if c.isDigit then some (digitsToNat (c :: cs.takeWhile Char.isDigit))
    else firstDigitRun cs

/-- `firstDigitRun` on strings. -/
def firstDigitRunS (s : String) : Option Nat :=
  firstDigitRun s.toList

/-- Python `str.upper()` (ASCII part). -/
def asciiUpper (s : List Char) : List Char :=
  s.map Char.toUpper

/-- Python `str.lower()` (ASCII part). -/
def asciiLower (s : List Char) : List Char :=
  s.map Char.toLower

/-! ## The dictionary model

The pipeline reads and writes the five schema keys and the `_metadata`
marker.  A JSON value stored at a key is a string or an integer. -/

/-- A JSON-dict field value: either a string or an integer. -/
inductive JVal where
  | s (v : String)
  | i (v : Int)
deriving DecidableEq, Repr

/-- The `_metadata` dict attached by `simple_parse`:
`{"parsing_method": ..., "original_text_length": ...}`. -/
structure JMeta where
  parsing_method : String
  original_text_length : Nat
deriving DecidableEq, Repr

/-- A Python dict as seen by the pipeline: the five schema keys plus the
`_metadata` key, each possibly absent. -/
structure JDict where
  severity : Option JVal := none
  component : Option JVal := none
  timestamp : Option JVal := none
  suspected_cause : Option JVal := none
  impact_count : Option JVal := none
  meta : Option JMeta := none
deriving DecidableEq, Repr

/-! ## `groq_client.post_process_data` -/

/-- The missing-field fill loop of `post_process_data` (and the identical
loop in `parse_and_validate`): each absent schema field becomes
`"Unknown"`, except `Impact_Count` which becomes `0`. -/
def fillDefaults (d : JDict) : JDict :=
  { d with
    severity := some (d.severity.getD (.s "Unknown"))
    component := some (d.component.getD (.s "Unknown"))
    timestamp := some (d.timestamp.getD (.s "Unknown"))
    suspected_cause := some (d.suspected_cause.getD (.s "Unknown"))
    impact_count := some (d.impact_count.getD (.i 0)) }

/-- The severity enum test `data["Severity"] in ["High", "Med", "Low"]`. -/
def sevValid : Option JVal → Bool
  | some (.s x) => x = "High" || x = "Med" || x = "Low"
  | _ => false

/-- `groq_client.post_process_data(data, original_text)`.  The
`original_text` parameter is accepted, exactly as in the source, but the
body never uses it. -/
def post_process_data (data : JDict) (original_text : String) : JDict :=
  let d := fillDefaults data
  -- `impact = data.get("Impact_Count", 0)`; a string value is reduced to
  -- its first digit run (else 0) and written back.
  let step : Int × JDict :=
    match d.impact_count with
    | some (.s str) =>
      let n : Int := ((firstDigitRunS str).getD 0 : Nat)
      (n, { d with impact_count := some (.i n) })
    | some (.i n) => (n, d)
    | none => (0, d)
  let impact := step.1
  let d := step.2
  let d :=
    if 500 ≤ impact then { d with severity := some (.s "High") }
    else if 100 ≤ impact ∧ d.severity = some (.s "Low") then
      { d with severity := some (.s "Med") }
    else if impact < 100 ∧ d.severity = some (.s "High") then
      { d with severity := some (.s "Med") }
    else d
  if sevValid d.severity then d else { d with severity := some (.s "Med") }

/-! ## `groq_client.simple_parse`

The fallback extractor.  Its time regex is
`(\d{1,2}:\d{2}\s*[AP]M|\d{1,2}\s*[AP]M)` with `re.IGNORECASE`; the model
implements Python's leftmost search with greedy quantifiers and
alternation preference. -/

/-- `\s` of Python `re` (ASCII part). -/
def reWsChar (c : Char) : Bool :=
  c = ' ' || c = '\t' || c = '\n' || c = '\r' || c = Char.ofNat 11 || c = Char.ofNat 12

/-- `[APap]`. -/
def isAorP (c : Char) : Bool :=
  c = 'A' || c = 'P' || c = 'a' || c = 'p'

/-- `[Mm]`. -/
def isM (c : Char) : Bool :=
  c = 'M' || c = 'm'

/-- Match `\s*[AP]M` (ignore-case) at the head; returns the matched
characters.  `\s*` is greedy, and `\s` and `[APap]` are disjoint, so no
backtracking is needed. -/
def matchMeridiem (cs : List Char) : Option (List Char) :=
  let ws := cs.takeWhile reWsChar
  match cs.dropWhile reWsChar with
  | a :: m :: _ => if isAorP a && isM m then some (ws ++ [a, m]) else none
  | _ => none

/-- Match `:\d{2}\s*[AP]M` at the head. -/
def matchColonPart (cs : List Char) : Option (List Char) :=
  match cs with
  | ':' :: d1 :: d2 :: rest =>
    if d1.isDigit && d2.isDigit then
      (matchMeridiem rest).map (fun m => ':' :: d1 :: d2 :: m)
    else none
  | _ => none

/-- Try alternative `\d{1,2}:\d{2}\s*[AP]M` at the head: the `\d{1,2}`
is greedy (two digits first, backtracking to one). -/
def matchTimeAlt1 (cs : List Char) : Option (List Char) :=
  match cs with
  | c1 :: rest =>
    if c1.isDigit then
      (match rest with
       | c2 :: rest2 =>
         if c2.isDigit then
           (matchColonPart rest2).map (fun m => c1 :: c2 :: m)
         else none
       | [] => none) <|>
      (matchColonPart rest).map (fun m => c1 :: m)
    else none
  | [] => none

/-- Try alternative `\d{1,2}\s*[AP]M` at the head, `\d{1,2}` greedy. -/
def matchTimeAlt2 (cs : List Char) : Option (List Char) :=
  match cs with
  | c1 :: rest =>
    if c1.isDigit then
      (match rest with
       | c2 :: rest2 =>
         if c2.isDigit then
           (matchMeridiem rest2).map (fun m => c1 :: c2 :: m)
         else none
       | [] => none) <|>
      (matchMeridiem rest).map (fun m => c1 :: m)
    else none
  | [] => none

/-- The whole alternation at one position: alternative 1 is preferred. -/
def matchTimeAt (cs : List Char) : Option (List Char) :=
  matchTimeAlt1 cs <|> matchTimeAlt2 cs

/-- `re.search` of the time pattern: leftmost position wins. -/
def findTime : List Char → Option (List Char)
  | [] => none
  | c :: cs => matchTimeAt (c :: cs) <|> findTime cs

/-- `groq_client.simple_parse(text)`: the regex-only fallback extractor. -/
def simple_parse (text : String) : JDict :=
  let base : JDict :=
    { severity := some (.s "Med")
      component := some (.s "Unknown")
      timestamp := some (.s "Unknown")
      suspected_cause := some (.s "Unknown")
      impact_count := some (.i 0)
      meta := none }
  -- numbers = re.findall(r'\d+', text); if numbers: ...
  let d :=
    match firstDigitRunS text with
    | some n =>
      let sev := if 500 ≤ n then "High" else if 100 ≤ n then "Med" else "Low"
      { base with impact_count := some (.i (n : Int)), severity := some (.s sev) }
    | none => base
  -- time_pattern search, uppercased on match
  let d :=
    match findTime text.toList with
    | some m => { d with timestamp := some (.s ⟨asciiUpper m⟩) }
    | none => d
  -- component guess by keyword containment on the lowercased text
  let low := asciiLower text.toList
  let d :=
    if hasSeg "database".toList low then { d with component := some (.s "Database") }
    else if hasSeg "api".toList low then { d with component := some (.s "API") }
    else if hasSeg "load balancer".toList low then
      { d with component := some (.s "Load Balancer") }
    else if hasSeg "server".toList low then { d with component := some (.s "Server") }
    else d
  { d with meta := some ⟨"simple_regex", text.length⟩ }

/-! ## `groq_client.call_groq_api_structured`

The two model-calling strategies (`try_langchain_chatgroq`,
`try_direct_groq_api`) are network effects; each either produces a record
(already passed through `post_process_data`) or a dict carrying an
`"error"` key.  Their outcomes are therefore parameters, as `Except`
values: `.error msg` models a dict containing the `"error"` key. -/

/-- `groq_client.call_groq_api_structured(text)`, parameterised by the
availability of the LangChain strategy and the outcomes of the two
model-calling strategies. -/
def call_groq_api_structured (lcAvail : Bool) (s1 s2 : Except String JDict)
    (text : String) : JDict :=
  let afterS1 : Option JDict :=
    if lcAvail then
      match s1 with
      | .ok r => some r
      | .error _ => none
    else none
  match afterS1 with
  | some r => r
  | none =>
    match s2 with
    | .ok r => r
    | .error _ => simple_parse text

/-- The outcome of a model-calling strategy: on success the strategy
returns `post_process_data` of the model-produced dict and the input text;
on failure it returns an error dict. -/
def stratOf (text : String) : Option JDict → String → Except String JDict
  | some d, _ => .ok (post_process_data d text)
  | none, e => .error e

/-! ## `json_utils.extract_incident_data` and the impact coercion of
`json_utils.parse_and_validate` -/

/-- A pipeline result: a record, or an error dict with a message. -/
inductive PipeResult where
  | ok (d : JDict)
  | err (msg : String)
deriving DecidableEq, Repr

/-- The emptiness test `not text or not text.strip()`. -/
def pyIsEmptyOrWs (text : String) : Bool :=
  text = "" || stripList text.toList = []

/-- `json_utils.extract_incident_data(text, api_call_func)`.  The
`api_call_func` parameter is accepted, exactly as in the source, but the
body never uses it. -/
def extract_incident_data (lcAvail : Bool) (s1 s2 : Except String JDict)
    (text : String) (api_call_func : Option (String → JDict)) : PipeResult :=
  if pyIsEmptyOrWs text then .err "Input text is empty"
  else .ok (call_groq_api_structured lcAvail s1 s2 text)

/-- The `Impact_Count` coercion step of `json_utils.parse_and_validate`
(lines 82–91): a string is reduced to its first digit run (else 0), any
other value is cast with `int(...)`, which on an integer is the identity. -/
def pv_coerce_impact : JVal → Int
  | .s str => ((firstDigitRunS str).getD 0 : Nat)
  | .i n => n

/-! ## A model of `json.loads` / `json.dumps`

`json_utils.clean_json_response` decides success by whether `json.loads`
raises.  The parser below follows Python's strict JSON grammar: `null`,
`true`, `false`, the constants `NaN`/`Infinity`/`-Infinity`, numbers
(kept as their source lexeme, so no floating point enters the model),
strings with the full escape set including `\uXXXX` and surrogate pairs
(a lone surrogate, which Python tolerates, is rejected since a Lean
`Char` cannot carry it), arrays, and objects with string keys where a
duplicate key keeps its first position and last value, as `dict` does. -/

mutual

/-- A parsed JSON value.  Arrays and objects carry their own list types so
that recursion over values is structural (a nested `List Json` would force
well-founded recursion, which the kernel cannot evaluate). -/
inductive Json where
  | null
  | bool (b : Bool)
  | num (lexeme : String)
  | str (s : String)
  | arr (elems : JsonArr)
  | obj (fields : JsonObj)
deriving DecidableEq

/-- The elements of a JSON array. -/
inductive JsonArr where
  | nil
  | cons (hd : Json) (tl : JsonArr)
deriving DecidableEq

/-- The members of a JSON object, in insertion order. -/
inductive JsonObj where
  | nil
  | cons (key : String) (val : Json) (tl : JsonObj)
deriving DecidableEq

end

/-- Pack a Lean list of values as a `JsonArr`. -/
def toJsonArr : List Json → JsonArr
  | [] => .nil
  | v :: vs => .cons v (toJsonArr vs)

/-- Pack a Lean association list as a `JsonObj`. -/
def toJsonObj : List (String × Json) → JsonObj
  | [] => .nil
  | (k, v) :: fs => .cons k v (toJsonObj fs)

/-- JSON inter-token whitespace. -/
def jsonWsChar (c : Char) : Bool :=
  c = ' ' || c = '\t' || c = '\n' || c = '\r'

/-- Value of one hexadecimal digit. -/
def hexNibble (c : Char) : Option Nat :=
  if '0' ≤ c ∧ c ≤ '9' then some (c.toNat - 48)
  else if 'a' ≤ c ∧ c ≤ 'f' then some (c.toNat - 87)
  else if 'A' ≤ c ∧ c ≤ 'F' then some (c.toNat - 55)
  else none

/-- Four hexadecimal digits. -/
def parseHex4 : List Char → Option (Nat × List Char)
  | a :: b :: c :: d :: rest => do
    let x ← hexNibble a
    let y ← hexNibble b
    let z ← hexNibble c
    let w ← hexNibble d
    pure (((x * 16 + y) * 16 + z) * 16 + w, rest)
  | _ => none

/-- The single-character JSON escapes. -/
def simpleEscape (e : Char) : Option Char :=
  if e = '"' then some '"'
  else if e = '\\' then some '\\'
  else if e = '/' then some '/'
  else if e = 'b' then some (Char.ofNat 8)
  else if e = 'f' then some (Char.ofNat 12)
  else if e = 'n' then some '\n'
  else if e = 'r' then some '\r'
  else if e = 't' then some '\t'
  else none

/-- Body of a JSON string after the opening quote; returns the decoded
characters and the input after the closing quote. -/
def parseStrBody : Nat → List Char → Option (List Char × List Char)
  | 0, _ => none
  | fuel + 1, cs =>
    match cs with
    | [] => none
    | c :: rest =>
      if c = '"' then some ([], rest)
      else if c = '\\' then
        match rest with
        | [] => none
        | e :: rest2 =>
          if e = 'u' then
            match parseHex4 rest2 with
            | none => none
            | some (n, rest3) =>
              if 0xD800 ≤ n ∧ n < 0xDC00 then
                match rest3 with
                | '\\' :: 'u' :: rest4 =>
                  match parseHex4 rest4 with
                  | some (m, rest5) =>
                    if 0xDC00 ≤ m ∧ m < 0xE000 then
                      (parseStrBody fuel rest5).map (fun p =>
                        (Char.ofNat (0x10000 + (n - 0xD800) * 0x400 + (m - 0xDC00)) :: p.1, p.2))
                    else none
                  | none => none
                | _ => none
              else if 0xDC00 ≤ n ∧ n < 0xE000 then none
              else (parseStrBody fuel rest3).map (fun p => (Char.ofNat n :: p.1, p.2))
          else
            match simpleEscape e with
            | some ch => (parseStrBody fuel rest2).map (fun p => (ch :: p.1, p.2))
            | none => none
      else if c.toNat < 0x20 then none
      else (parseStrBody fuel rest).map (fun p => (c :: p.1, p.2))

/-- Integer part of a JSON number: `0` or a nonzero digit followed by
digits (leading zeros are not allowed). -/
def parseIntPart : List Char → Option (List Char × List Char)
  | [] => none
  | c :: rest =>
    if c = '0' then some (['0'], rest)
    else if c.isDigit then
      some (c :: rest.takeWhile Char.isDigit, rest.dropWhile Char.isDigit)
    else none

/-- Optional fraction part `(\.\d+)?`. -/
def parseFracPart : List Char → List Char × List Char
  | '.' :: rest =>
    let ds := rest.takeWhile Char.isDigit
    if ds = [] then ([], '.' :: rest)
    else ('.' :: ds, rest.dropWhile Char.isDigit)
  | cs => ([], cs)

/-- Optional exponent part `([eE][+-]?\d+)?`. -/
def parseExpPart (cs : List Char) : List Char × List Char :=
  match cs with
  | e :: rest =>
    if e = 'e' ∨ e = 'E' then
      let signAndRest : List Char × List Char :=
        match rest with
        | s :: rest2 => if s = '+' ∨ s = '-' then ([s], rest2) else ([], rest)
        | [] => ([], rest)
      let ds := signAndRest.2.takeWhile Char.isDigit
      if ds = [] then ([], cs)
      else (e :: signAndRest.1 ++ ds, signAndRest.2.dropWhile Char.isDigit)
    else ([], cs)
  | [] => ([], cs)

/-- A JSON number at the head of the input, kept as its lexeme. -/
def parseNum (cs : List Char) : Option (Json × List Char) :=
  let signAndRest : List Char × List Char :=
    match cs with
    | '-' :: rest => (['-'], rest)
    | _ => ([], cs)
  match parseIntPart signAndRest.2 with
  | none => none
  | some (ip, rest1) =>
    let fp := parseFracPart rest1
    let ep := parseExpPart fp.2
    some (.num ⟨signAndRest.1 ++ ip ++ fp.1 ++ ep.1⟩, ep.2)

/-- Insert a key into an object under construction: a duplicate key keeps
its first position and takes the last value, as a Python `dict` does. -/
def insertKey : List (String × Json) → String → Json → List (String × Json)
  | [], k, v => [(k, v)]
  | (k', v') :: rest, k, v =>
    if k' = k then (k', v) :: rest else (k', v') :: insertKey rest k v

mutual

/-- A JSON value at the head of the input (leading whitespace allowed). -/
def parseVal : Nat → List Char → Option (Json × List Char)
  | 0, _ => none
  | fuel + 1, cs0 =>
    let cs := cs0.dropWhile jsonWsChar
    match cs with
    | 'n' :: 'u' :: 'l' :: 'l' :: rest => some (.null, rest)
    | 't' :: 'r' :: 'u' :: 'e' :: rest => some (.bool true, rest)
    | 'f' :: 'a' :: 'l' :: 's' :: 'e' :: rest => some (.bool false, rest)
    | 'N' :: 'a' :: 'N' :: rest => some (.num "NaN", rest)
    | 'I' :: 'n' :: 'f' :: 'i' :: 'n' :: 'i' :: 't' :: 'y' :: rest =>
      some (.num "Infinity", rest)
    | '-' :: 'I' :: 'n' :: 'f' :: 'i' :: 'n' :: 'i' :: 't' :: 'y' :: rest =>
      some (.num "-Infinity", rest)
    | c :: rest =>
      if c = '"' then
        (parseStrBody fuel rest).map (fun p => (.str ⟨p.1⟩, p.2))
      else if c = '[' then
        match rest.dropWhile jsonWsChar with
        | d :: rest2 =>
          if d = ']' then some (.arr .nil, rest2) else parseArrElems fuel rest []
        | [] => none
      else if c = lbrace then
        match rest.dropWhile jsonWsChar with
        | d :: rest2 =>
          if d = rbrace then some (.obj .nil, rest2) else parseObjFields fuel rest []
        | [] => none
      else if c = '-' ∨ c.isDigit then parseNum cs
      else none
    | [] => none

/-- Array elements after the first `[` (the array is known nonempty). -/
def parseArrElems : Nat → List Char → List Json → Option (Json × List Char)
  | 0, _, _ => none
  | fuel + 1, cs, acc =>
    match parseVal fuel cs with
    | none => none
    | some (v, rest) =>
      match rest.dropWhile jsonWsChar with
      | ',' :: rest2 => parseArrElems fuel rest2 (acc ++ [v])
      | d :: rest2 => if d = ']' then some (.arr (toJsonArr (acc ++ [v])), rest2) else none
      | [] => none

/-- Object members after the first `\x7b` (the object is known nonempty). -/
def parseObjFields : Nat → List Char → List (String × Json) → Option (Json × List Char)
  | 0, _, _ => none
  | fuel + 1, cs, acc =>
    match cs.dropWhile jsonWsChar with
    | c :: rest =>
      if c = '"' then
        match parseStrBody fuel rest with
        | none => none
        | some (key, rest2) =>
          match rest2.dropWhile jsonWsChar with
          | ':' :: rest3 =>
            match parseVal fuel rest3 with
            | none => none
            | some (v, rest4) =>
              match rest4.dropWhile jsonWsChar with
              | ',' :: rest5 => parseObjFields fuel rest5 (insertKey acc ⟨key⟩ v)
              | d :: rest5 =>
                if d = rbrace then some (.obj (toJsonObj (insertKey acc ⟨key⟩ v)), rest5)
                else none
              | [] => none
          | _ => none
      else none
    | [] => none

end

/-- `json.loads` on char lists: one JSON document, with only whitespace
allowed after it.  The fuel bound is generous; every recursive step first
consumes input, so it is never reached on inputs the grammar accepts. -/
def json_loadsL (cs : List Char) : Option Json :=
  match parseVal (4 * cs.length + 8) cs with
  | some (v, rest) => if rest.dropWhile jsonWsChar = [] then some v else none
  | none => none

/-- `json.loads` on strings. -/
def json_loads (s : String) : Option Json :=
  json_loadsL s.toList

/-- Lowercase hexadecimal digit. -/
def hexDig (n : Nat) : Char :=
  if n < 10 then Char.ofNat (48 + n) else Char.ofNat (87 + n)

/-- Four lowercase hexadecimal digits. -/
def hex4 (n : Nat) : List Char :=
  [hexDig (n / 4096 % 16), hexDig (n / 256 % 16), hexDig (n / 16 % 16), hexDig (n % 16)]

/-- `json.dumps` escaping of one character, with `ensure_ascii=True`:
the shorthand escapes, printable ASCII kept literal, everything else as
`\uXXXX` (astral characters as a surrogate pair). -/
def escapeJChar (c : Char) : List Char :=
  if c = '"' then ['\\', '"']
  else if c = '\\' then ['\\', '\\']
  else if c = '\n' then ['\\', 'n']
  else if c = '\r' then ['\\', 'r']
  else if c = '\t' then ['\\', 't']
  else if c.toNat = 8 then ['\\', 'b']
  else if c.toNat = 12 then ['\\', 'f']
  else if 0x20 ≤ c.toNat ∧ c.toNat ≤ 0x7E then [c]
  else if c.toNat < 0x10000 then '\\' :: 'u' :: hex4 c.toNat
  else
    let v := c.toNat - 0x10000
    ('\\' :: 'u' :: hex4 (0xD800 + v / 0x400)) ++ ('\\' :: 'u' :: hex4 (0xDC00 + v % 0x400))

/-- `json.dumps` of a string value. -/
def dumpsStr (s : String) : String :=
  ⟨'"' :: (s.toList.map escapeJChar).flatten ++ ['"']⟩

/-- The string `"\x7b"`. -/
def lbraceS : String := ⟨[lbrace]⟩

/-- The string `"\x7d"`. -/
def rbraceS : String := ⟨[rbrace]⟩

mutual

/-- `json.dumps` with default separators `", "` and `": "`. -/
def json_dumps : Json → String
  | .null => "null"
  | .bool true => "true"
  | .bool false => "false"
  | .num lexeme => lexeme
  | .str s => dumpsStr s
  | .arr xs => "[" ++ String.intercalate ", " (dumpsArr xs) ++ "]"
  | .obj fs => lbraceS ++ String.intercalate ", " (dumpsObj fs) ++ rbraceS

/-- Serialised array elements. -/
def dumpsArr : JsonArr → List String
  | .nil => []
  | .cons v vs => json_dumps v :: dumpsArr vs

/-- Serialised object members. -/
def dumpsObj : JsonObj → List String
  | .nil => []
  | .cons k v fs => (dumpsStr k ++ ": " ++ json_dumps v) :: dumpsObj fs

end

/-! ## `json_utils.clean_json_response` -/

/-- One step of the scan that realises the candidate regex
`\x7b[^\x7b\x7d]*(?:\x7b[^\x7b\x7d]*\x7d[^\x7b\x7d]*)*\x7d`: walk forward
from an opening brace tracking nesting depth 1 or 2; a third level or the
end of input kills the attempt, and the brace returning to depth 0 ends
the match.  Returns the matched segment and the rest of the input. -/
def walkDepth : List Char → Nat → List Char → Option (List Char)
  | [], _, _ => none
  | c :: cs, depth, acc =>
    if c = lbrace then
      if depth = 1 then walkDepth cs 2 (c :: acc) else none
    else if c = rbrace then
      if depth = 2 then walkDepth cs 1 (c :: acc)
      else some (c :: acc).reverse
    else walkDepth cs depth (c :: acc)

/-- Fueled worker for `findCandidates`.  Every step consumes at least one
character and exactly one unit of fuel, so fuel equal to the input length
never runs out; the fuel-0 clause is unreachable then. -/
def findCandidatesF : Nat → List Char → List (List Char)
  | _, [] => []
  | 0, _ => []
  | fuel + 1, c :: cs =>
    if c = lbrace then
      match walkDepth cs 1 [c] with
      | some m => m :: findCandidatesF fuel (cs.drop (m.length - 1))
      | none => findCandidatesF fuel cs
    else findCandidatesF fuel cs

/-- `re.findall` of the candidate pattern: scan left to right; a match
attempt starts at every `\x7b`; matches do not overlap, so after a match
of length `n` starting at the current position the scan resumes `n`
characters further on (the returned match always extends the accumulator,
so dropping `m.length - 1` characters drops exactly the matched rest). -/
def findCandidates (s : List Char) : List (List Char) :=
  findCandidatesF s.length s

/-- `.replace('```json', '').replace('```', '').strip()` — the shared
preamble of every extraction strategy. -/
def strip_fences (r : List Char) : List Char :=
  stripList (replaceList "```".toList (replaceList "```json".toList r))

/-- `json_utils.clean_json_response(raw_response)` on char lists. -/
def cleanL (raw : List Char) : Option (List Char) :=
  if raw = [] then none
  else
    let r := strip_fences raw
    if (json_loadsL r).isSome then some r
    else
      let viaBraces : Option (List Char) :=
        match idxOfChar lbrace r, rIdxOfChar rbrace r with
        | some st, some en =>
          let sub := (r.take (en + 1)).drop st
          if (json_loadsL sub).isSome then some sub else none
        | _, _ => none
      match viaBraces with
      | some t => some t
      | none => (findCandidates r).find? (fun m => (json_loadsL m).isSome)

/-- `json_utils.clean_json_response(raw_response)`. -/
def clean_json_response (raw : String) : Option String :=
  (cleanL raw.toList).map (fun l => ⟨l⟩)

/-! A second description of the extractor, following the specification's
words: three strategies tried in order, each returning the first candidate
whose text parses, `none` only when all fail. -/

/-- Strategy 1 of the specification: parse the fence-stripped string
whole. -/
def stratWhole (r : List Char) : Option (List Char) :=
  if (json_loadsL r).isSome then some r else none

/-- Strategy 2 of the specification: parse the substring from the first
`\x7b` to the last `\x7d`. -/
def stratFirstLast (r : List Char) : Option (List Char) :=
  match idxOfChar lbrace r, rIdxOfChar rbrace r with
  | some st, some en =>
    let sub := (r.take (en + 1)).drop st
    if (json_loadsL sub).isSome then some sub else none
  | _, _ => none

/-- Strategy 3 of the specification: the first regex candidate, in
textual order, whose text parses. -/
def stratScan (r : List Char) : Option (List Char) :=
  (findCandidates r).find? (fun m => (json_loadsL m).isSome)

/-- `clean_json_response` as the specification words it (with strategy 1
accepting any JSON value, not only objects). -/
def cleanJsonResponseSpec (raw : String) : Option String :=
  if raw = "" then none
  else
    let r := strip_fences raw.toList
    ((stratWhole r <|> stratFirstLast r) <|> stratScan r).map (fun l => ⟨l⟩)

/-- Whether a parsed JSON value is an object. -/
def isObjJson : Json → Bool
  | .obj _ => true
  | _ => false

/-- The number of leading backticks of a string; used to show that fence
stripping leaves no fence marker behind. -/
def leadCount (s : List Char) : Nat :=
  (s.takeWhile (fun c => c = btick)).length

/-- The impact value `post_process_data` computes from the incoming
`Impact_Count` field: the default `0` when absent, the first digit run
(else 0) of a string, an integer as itself. -/
def coerceImpact : Option JVal → Int
  | some (.s str) => ((firstDigitRunS str).getD 0 : Nat)
  | some (.i n) => n
  | none => 0

/-- Concrete record used to exercise `post_process_data` on a negative
model-supplied `Impact_Count`. -/
def negDict : JDict :=
  { severity := some (.s "Low")
    component := some (.s "API")
    timestamp := some (.s "Unknown")
    suspected_cause := some (.s "Unknown")
    impact_count := some (.i (-5)) }

/-- The data of the specification's midnight scenario as the model path
would hand it to `post_process_data`: `Timestamp` resolved to
`"Unknown"`. -/
def midnightDict : JDict :=
  { severity := some (.s "Low")
    component := some (.s "API")
    timestamp := some (.s "Unknown")
    suspected_cause := some (.s "Memory leak")
    impact_count := some (.i 100) }

/-- The original text of the specification's midnight scenario. -/
def midnightText : String := "API crashed around midnight. 100 users impacted."

/-! ## Behaviour of `post_process_data` -/

theorem post_process_sev_eq (d : JDict) (t : String) :
    (post_process_data d t).severity = some (.s (
      if 500 ≤ coerceImpact d.impact_count then "High"
      else if 100 ≤ coerceImpact d.impact_count ∧ d.severity = some (.s "Low") then "Med"
      else if coerceImpact d.impact_count < 100 ∧ d.severity = some (.s "High") then "Med"
      else match d.severity with
        | some (.s x) => if x = "High" || x = "Med" || x = "Low" then x else "Med"
        | _ => "Med")) := by
  rcases d with ⟨sev, comp, ts, cause, imp, meta⟩
  rcases imp with _ | (⟨str⟩ | ⟨n⟩) <;>
  rcases sev with _ | (⟨x⟩ | ⟨m⟩) <;>
    · simp only [post_process_data, fillDefaults, sevValid, coerceImpact, Option.getD]
      split_ifs <;> first | rfl | simp_all

theorem post_process_impact_eq (d : JDict) (t : String) :
    (post_process_data d t).impact_count = some (.i (coerceImpact d.impact_count)) := by
  rcases d with ⟨sev, comp, ts, cause, imp, meta⟩
  rcases imp with _ | (⟨str⟩ | ⟨n⟩) <;>
    · simp only [post_process_data, fillDefaults, sevValid, coerceImpact, Option.getD]
      split_ifs <;> rfl

theorem post_process_frame (d : JDict) (t : String) :
    (post_process_data d t).component = some (d.component.getD (.s "Unknown")) ∧
    (post_process_data d t).timestamp = some (d.timestamp.getD (.s "Unknown")) ∧
    (post_process_data d t).suspected_cause = some (d.suspected_cause.getD (.s "Unknown")) ∧
    (post_process_data d t).meta = d.meta := by
  rcases d with ⟨sev, comp, ts, cause, imp, meta⟩
  rcases imp with _ | (⟨str⟩ | ⟨n⟩) <;>
    · simp only [post_process_data, fillDefaults, sevValid, coerceImpact, Option.getD]
      split_ifs <;> exact ⟨rfl, rfl, rfl, rfl⟩

theorem post_process_const_text (d : JDict) (t t' : String) :
    post_process_data d t = post_process_data d t' := rfl

theorem simple_parse_impact (text : String) :
    (simple_parse text).impact_count = some (.i (((firstDigitRunS text).getD 0 : Nat) : Int)) := by
  unfold simple_parse
  rcases firstDigitRunS text with _ | n <;>
    dsimp only [Option.getD] <;>
    cases findTime text.toList <;>
      dsimp only <;>
      first | rfl | (split_ifs <;> rfl)

theorem simple_parse_sev (text : String) :
    (simple_parse text).severity = some (.s (
      match firstDigitRunS text with
      | some n => if 500 ≤ n then "High" else if 100 ≤ n then "Med" else "Low"
      | none => "Med")) := by
  unfold simple_parse
  rcases firstDigitRunS text with _ | n <;>
    dsimp only [Option.getD] <;>
    cases findTime text.toList <;>
      dsimp only <;>
      first | rfl | (split_ifs <;> rfl)

theorem simple_parse_meta (text : String) :
    (simple_parse text).meta = some ⟨"simple_regex", text.length⟩ := by
  unfold simple_parse
  rcases firstDigitRunS text with _ | n <;>
    dsimp only [Option.getD] <;>
    cases findTime text.toList <;>
      dsimp only <;>
      first | rfl | (split_ifs <;> rfl)

theorem simple_parse_fields (text : String) :
    (simple_parse text).severity.isSome ∧ (simple_parse text).component.isSome ∧
    (simple_parse text).timestamp.isSome ∧ (simple_parse text).suspected_cause.isSome ∧
    (simple_parse text).impact_count.isSome := by
  unfold simple_parse
  rcases firstDigitRunS text with _ | n <;>
    dsimp only [Option.getD] <;>
    cases findTime text.toList <;>
      dsimp only <;>
      first | exact ⟨rfl, rfl, rfl, rfl, rfl⟩ | (split_ifs <;> exact ⟨rfl, rfl, rfl, rfl, rfl⟩)

theorem post_process_sev_mem (d : JDict) (t : String) :
    (post_process_data d t).severity = some (.s "High") ∨
    (post_process_data d t).severity = some (.s "Med") ∨
    (post_process_data d t).severity = some (.s "Low") := by
  rw [post_process_sev_eq]
  by_cases h1 : 500 ≤ coerceImpact d.impact_count
  · simp [h1]
  by_cases h2 : 100 ≤ coerceImpact d.impact_count ∧ d.severity = some (.s "Low")
  · simp [h1, h2]
  by_cases h3 : coerceImpact d.impact_count < 100 ∧ d.severity = some (.s "High")
  · simp [h1, h2, h3]
  simp only [if_neg h1, if_neg h2, if_neg h3]
  rcases d.severity with _ | (⟨x⟩ | ⟨m⟩)
  · simp
  · dsimp only
    split_ifs with h4
    · simp only [Bool.or_eq_true, decide_eq_true_eq] at h4
      rcases h4 with (h | h) | h <;> subst h <;> simp
    · simp
  · simp

theorem simple_parse_sev_mem (text : String) :
    (simple_parse text).severity = some (.s "High") ∨
    (simple_parse text).severity = some (.s "Med") ∨
    (simple_parse text).severity = some (.s "Low") := by
  rw [simple_parse_sev]
  rcases firstDigitRunS text with _ | n
  · simp
  · dsimp only
    split_ifs <;> simp

/-! ## Claims -/

/-- C1, counterexample.  A non-error pipeline result can carry a negative
`Impact_Count`: when the model path hands `post_process_data` a record
whose `Impact_Count` is the integer `-5`, the integer is passed through
unchanged, so the claimed invariant "Impact_Count is a non-negative
integer for every non-error result" fails. -/
theorem c1_counterexample :
    (call_groq_api_structured true (stratOf "t" (some negDict) "")
        (Except.error "boom") "t").impact_count = some (.i (-5)) ∧
    (-5 : Int) < 0 := by
  constructor
  · rfl
  · decide

/-- C1, amended.  `Impact_Count` is a non-negative integer on the fallback
path, and on the model path whenever the incoming `Impact_Count` is absent
or a string (the digit-run coercion and the defaults never produce a
negative value); the `parse_and_validate` string coercion is likewise
non-negative.  Only a negative integer supplied by the model escapes. -/
theorem c1_amended (text t : String) (d : JDict)
    (h : d.impact_count = none ∨ ∃ s, d.impact_count = some (.s s)) :
    (∃ n : Int, (simple_parse text).impact_count = some (.i n) ∧ 0 ≤ n) ∧
    (∃ n : Int, (post_process_data d t).impact_count = some (.i n) ∧ 0 ≤ n) ∧
    (∀ str, 0 ≤ pv_coerce_impact (.s str)) := by
  refine ⟨⟨(((firstDigitRunS text).getD 0 : Nat) : Int),
      simple_parse_impact text, Int.natCast_nonneg _⟩, ?_, fun str => Int.natCast_nonneg _⟩
  refine ⟨coerceImpact d.impact_count, post_process_impact_eq d t, ?_⟩
  rcases h with h | ⟨s, h⟩ <;> rw [h] <;> simp [coerceImpact] <;> exact Int.natCast_nonneg _

theorem c1_amended_witness :
    (({ impact_count := some (JVal.s "12 users") } : JDict).impact_count = none ∨
      ∃ s, ({ impact_count := some (JVal.s "12 users") } : JDict).impact_count = some (.s s)) ∧
    ((∃ n : Int, (simple_parse "x").impact_count = some (.i n) ∧ 0 ≤ n) ∧
     (∃ n : Int,
        (post_process_data { impact_count := some (JVal.s "12 users") } "").impact_count =
          some (.i n) ∧ 0 ≤ n) ∧
     (∀ str, 0 ≤ pv_coerce_impact (.s str))) :=
  ⟨Or.inr ⟨"12 users", rfl⟩, c1_amended "x" "" _ (Or.inr ⟨"12 users", rfl⟩)⟩

/-- C2.  For every non-error pipeline result — a strategy outcome passed
through `post_process_data`, or the fallback `simple_parse` — the
`Severity` field is one of exactly `"High"`, `"Med"`, `"Low"`; and a
model-proposed value outside the enum is overwritten with `"Med"`
(unless the `Impact_Count ≥ 500` rule forces `"High"` first). -/
theorem c2_severity_enum :
    (∀ (lcAvail : Bool) (text e1 e2 : String) (d1 d2 : Option JDict),
      (call_groq_api_structured lcAvail (stratOf text d1 e1) (stratOf text d2 e2)
          text).severity = some (.s "High") ∨
      (call_groq_api_structured lcAvail (stratOf text d1 e1) (stratOf text d2 e2)
          text).severity = some (.s "Med") ∨
      (call_groq_api_structured lcAvail (stratOf text d1 e1) (stratOf text d2 e2)
          text).severity = some (.s "Low")) ∧
    (∀ text, (simple_parse text).severity = some (.s "High") ∨
      (simple_parse text).severity = some (.s "Med") ∨
      (simple_parse text).severity = some (.s "Low")) ∧
    (∀ (d : JDict) (t s : String), d.severity = some (.s s) →
      sevValid (some (.s s)) = false → coerceImpact d.impact_count < 500 →
      (post_process_data d t).severity = some (.s "Med")) := by
  refine ⟨?_, simple_parse_sev_mem, ?_⟩
  · intro lcAvail text e1 e2 d1 d2
    cases lcAvail <;> cases d1 <;> cases d2 <;>
      simp only [call_groq_api_structured, stratOf] <;>
      first
        | exact post_process_sev_mem _ _
        | exact simple_parse_sev_mem _
  · intro d t s hs hv hlt
    rw [post_process_sev_eq, hs]
    simp only [sevValid] at hv
    rw [if_neg (by omega), if_neg ?hc2, if_neg ?hc3]
    case hc2 =>
      rintro ⟨-, he⟩
      simp only [Option.some.injEq, JVal.s.injEq] at he
      subst he
      simp at hv
    case hc3 =>
      rintro ⟨-, he⟩
      simp only [Option.some.injEq, JVal.s.injEq] at he
      subst he
      simp at hv
    dsimp only
    rw [if_neg (by simp [hv])]

theorem c2_witness :
    (post_process_data { severity := some (.s "CRITICAL"), impact_count := some (.i 42) }
        "t").severity = some (.s "Med") :=
  c2_severity_enum.2.2 _ "t" "CRITICAL" rfl (by decide) (by decide)

/-- C3.  After `post_process_data` runs, the severity/impact consistency
rules hold with the stated precedence on the coerced impact `i` (which is
the output `Impact_Count`): `i ≥ 500` forces `Severity = "High"`
regardless of the proposed severity (in particular at `i = 500`);
`100 ≤ i < 500` with proposed `"Low"` is raised to `"Med"`; `i < 100`
with proposed `"High"` is lowered to `"Med"`; and the uncovered case
`100 ≤ i < 500` with proposed `"High"` is left unchanged. -/
theorem c3_consistency (d : JDict) (t : String) (i : Int)
    (h : (post_process_data d t).impact_count = some (.i i)) :
    (500 ≤ i → (post_process_data d t).severity = some (.s "High")) ∧
    (100 ≤ i → i < 500 → d.severity = some (.s "Low") →
      (post_process_data d t).severity = some (.s "Med")) ∧
    (i < 100 → d.severity = some (.s "High") →
      (post_process_data d t).severity = some (.s "Med")) ∧
    (100 ≤ i → i < 500 → d.severity = some (.s "High") →
      (post_process_data d t).severity = some (.s "High")) := by
  have hi : i = coerceImpact d.impact_count := by
    have h2 := post_process_impact_eq d t
    rw [h] at h2
    simpa using h2
  subst hi
  refine ⟨?_, ?_, ?_, ?_⟩
  · intro h1
    rw [post_process_sev_eq, if_pos h1]
  · intro h1 h2 h3
    rw [post_process_sev_eq, if_neg (by omega), if_pos ⟨h1, h3⟩]
  · intro h1 h2
    rw [post_process_sev_eq, if_neg (by omega), if_neg (by rw [h2]; rintro ⟨-, he⟩; simp at he),
      if_pos ⟨h1, h2⟩]
  · intro h1 h2 h3
    rw [post_process_sev_eq, if_neg (by omega), if_neg (by rw [h3]; rintro ⟨-, he⟩; simp at he),
      if_neg (by rintro ⟨hl, -⟩; omega), h3]
    simp

theorem c3_witness :
    (post_process_data midnightDict "").severity = some (.s "Med") :=
  (c3_consistency midnightDict "" 100 rfl).2.1 (by decide) (by decide) rfl

/-- C4, evaluation at the failing input.  The claim says that when
`Timestamp` resolved to `"Unknown"` a secondary extraction runs on the
original text, so that "API crashed around midnight. 100 users impacted."
yields `"12:00 AM"`.  The code has no such extraction: `post_process_data`
never reads its `original_text` parameter (third conjunct: the result is
the same for every original text), and on the scenario's input the
timestamp stays `"Unknown"`. -/
theorem c4_no_secondary_timestamp :
    (post_process_data midnightDict midnightText).timestamp = some (.s "Unknown") ∧
    ("Unknown" : String) ≠ "12:00 AM" ∧
    (∀ (d : JDict) (t t' : String), post_process_data d t = post_process_data d t') :=
  ⟨rfl, by decide, fun d t t' => rfl⟩

/-- C5, counterexample.  On a digit-free text `simple_parse` leaves
`Severity` at the initial default `"Med"`, not the `"Low"` the claim
derives from the threshold rules at count 0. -/
theorem c5_counterexample :
    firstDigitRunS "API is down for everyone" = none ∧
    (simple_parse "API is down for everyone").impact_count = some (.i 0) ∧
    (simple_parse "API is down for everyone").severity = some (.s "Med") ∧
    ("Med" : String) ≠ "Low" := by
  refine ⟨rfl, rfl, rfl, by decide⟩

/-- C5, amended.  In `simple_parse`, `Impact_Count` equals the first run
of digits in the text (0 when none); when a digit run exists, `Severity`
follows the threshold rules on the count (≥ 500 `"High"`, ≥ 100 `"Med"`,
else `"Low"`), and when no digits are found it keeps the default
`"Med"`. -/
theorem c5_amended (text : String) :
    (simple_parse text).impact_count = some (.i (((firstDigitRunS text).getD 0 : Nat) : Int)) ∧
    (simple_parse text).severity = some (.s (
      match firstDigitRunS text with
      | some n => if 500 ≤ n then "High" else if 100 ≤ n then "Med" else "Low"
      | none => "Med")) :=
  ⟨simple_parse_impact text, simple_parse_sev text⟩

/-- C6.  When both model-calling strategies fail with an error, the
pipeline does not surface the error: `call_groq_api_structured` returns
the fallback `simple_parse` record, which carries all five schema fields
plus the `_metadata` marker naming the degraded path and the input
length; `extract_incident_data` returns either the empty-input error or
that record, so every non-empty input yields a structured record. -/
theorem c6_fallback (lcAvail : Bool) (e1 e2 : String) (text : String)
    (f : Option (String → JDict)) :
    call_groq_api_structured lcAvail (.error e1) (.error e2) text = simple_parse text ∧
    ((simple_parse text).severity.isSome ∧ (simple_parse text).component.isSome ∧
     (simple_parse text).timestamp.isSome ∧ (simple_parse text).suspected_cause.isSome ∧
     (simple_parse text).impact_count.isSome) ∧
    (simple_parse text).meta = some ⟨"simple_regex", text.length⟩ ∧
    (extract_incident_data lcAvail (.error e1) (.error e2) text f = .err "Input text is empty" ∨
     extract_incident_data lcAvail (.error e1) (.error e2) text f = .ok (simple_parse text)) := by
  have h1 : call_groq_api_structured lcAvail (.error e1) (.error e2) text = simple_parse text := by
    cases lcAvail <;> rfl
  refine ⟨h1, simple_parse_fields text, simple_parse_meta text, ?_⟩
  unfold extract_incident_data
  split_ifs with h
  · exact Or.inl rfl
  · exact Or.inr (by rw [h1])

/-- C9.  `post_process_data` modifies only `Severity` and `Impact_Count`:
`Component`, `Timestamp` and `Suspected_Cause` come through as their
incoming values (with absent fields filled with `"Unknown"`), `Timestamp`
in particular is never altered, the `_metadata` key is untouched, and an
absent `Impact_Count` is filled with 0. -/
theorem c9_frame (d : JDict) (t : String) :
    (post_process_data d t).component = some (d.component.getD (.s "Unknown")) ∧
    (post_process_data d t).timestamp = some (d.timestamp.getD (.s "Unknown")) ∧
    (post_process_data d t).suspected_cause = some (d.suspected_cause.getD (.s "Unknown")) ∧
    (post_process_data d t).meta = d.meta ∧
    (post_process_data { d with impact_count := none } t).impact_count = some (.i 0) := by
  refine ⟨(post_process_frame d t).1, (post_process_frame d t).2.1,
    (post_process_frame d t).2.2.1, (post_process_frame d t).2.2.2, ?_⟩
  exact post_process_impact_eq { d with impact_count := none } t

/-- C10.  `extract_incident_data` never invokes its `api_call_func`
parameter: the result is identical for any two values of it, and for
every non-empty input equals `call_groq_api_structured(text)`. -/
theorem c10_api_func_ignored (lcAvail : Bool) (s1 s2 : Except String JDict) (text : String)
    (f g : Option (String → JDict)) (h : pyIsEmptyOrWs text = false) :
    extract_incident_data lcAvail s1 s2 text f = extract_incident_data lcAvail s1 s2 text g ∧
    extract_incident_data lcAvail s1 s2 text f =
      .ok (call_groq_api_structured lcAvail s1 s2 text) := by
  refine ⟨rfl, ?_⟩
  unfold extract_incident_data
  rw [if_neg (by simp [h])]

theorem c10_witness :
    pyIsEmptyOrWs "x" = false ∧
    (extract_incident_data true (.error "a") (.error "b") "x" none =
       extract_incident_data true (.error "a") (.error "b") "x" (some (fun _ => {})) ∧
     extract_incident_data true (.error "a") (.error "b") "x" none =
       .ok (call_groq_api_structured true (.error "a") (.error "b") "x")) :=
  ⟨by decide,
    c10_api_func_ignored true (.error "a") (.error "b") "x" none (some (fun _ => {})) (by decide)⟩


theorem toList_eq_nil_iff (s : String) : s.toList = [] ↔ s = "" := by
  rw [String.ext_iff]
  exact Iff.rfl

theorem mk_eq_empty_iff (ls : List Char) : (String.mk ls = "") ↔ ls = [] := by
  rw [String.ext_iff]

/-- C7, counterexample.  On input `"42"` the whole-string strategy of
`clean_json_response` succeeds — `json.loads` accepts any JSON value —
and the extractor returns `"42"`, which parses to a number, not a JSON
object; the claim as stated ("returns the first ... that parses as a JSON
object, returning None only when all strategies fail") would require
`none` here. -/
theorem c7_counterexample :
    clean_json_response "42" = some "42" ∧
    json_loads "42" = some (Json.num "42") ∧
    isObjJson (Json.num "42") = false := by
  refine ⟨by decide, ?_, rfl⟩
  show json_loadsL ['4', '2'] = some (Json.num "42")
  decide

/-- C7, amended.  `clean_json_response` equals, on every input, the
specification-shaped extractor that tries the three strategies in order —
fence-stripped whole string, first-`\x7b`-to-last-`\x7d` substring, then
the regex candidates in textual order, each accepted as soon as its text
parses as JSON (any JSON value, not only an object, for the whole-string
strategy) — and it returns `none` exactly when the input is empty or all
three strategies fail. -/
theorem c7_strategy_order (raw : String) :
    clean_json_response raw = cleanJsonResponseSpec raw ∧
    (clean_json_response raw = none ↔
      raw = "" ∨ (stratWhole (strip_fences raw.toList) = none ∧
                  stratFirstLast (strip_fences raw.toList) = none ∧
                  stratScan (strip_fences raw.toList) = none)) := by
  obtain ⟨ls⟩ := raw
  have heq : clean_json_response ⟨ls⟩ = cleanJsonResponseSpec ⟨ls⟩ := by
    unfold clean_json_response cleanJsonResponseSpec cleanL
    simp only [String.toList]
    by_cases h : ls = []
    · subst h
      rw [if_pos rfl, if_pos rfl]
      rfl
    · have h' : ¬ (String.mk ls = "") := by rw [mk_eq_empty_iff]; exact h
      rw [if_neg h, if_neg h']
      by_cases h1 : (json_loadsL (strip_fences ls)).isSome
      · rw [if_pos h1]
        simp only [stratWhole, if_pos h1]
        rfl
      · rw [if_neg h1]
        simp only [stratWhole, if_neg h1]
        unfold stratFirstLast stratScan
        cases hx : idxOfChar lbrace (strip_fences ls) with
        | none => cases hy : rIdxOfChar rbrace (strip_fences ls) <;> simp [hx, hy, Option.orElse]
        | some st =>
          cases hy : rIdxOfChar rbrace (strip_fences ls) with
          | none => simp [hx, hy, Option.orElse]
          | some en =>
            dsimp only
            by_cases h2 : (json_loadsL (((strip_fences ls).take (en + 1)).drop st)).isSome
            · rw [if_pos h2]
              simp [Option.orElse]
            · rw [if_neg h2]
              simp [Option.orElse]
  refine ⟨heq, ?_⟩
  rw [heq]
  unfold cleanJsonResponseSpec
  simp only [String.toList]
  by_cases h : (String.mk ls) = ""
  · rw [if_pos h]
    simp [h]
  · rw [if_neg h]
    simp only [h, false_or]
    cases h1 : stratWhole (strip_fences ls) with
    | some t => simp [h1, Option.orElse]
    | none =>
      cases h2 : stratFirstLast (strip_fences ls) with
      | some t => simp [h1, h2, Option.orElse]
      | none =>
        cases h3 : stratScan (strip_fences ls) with
        | some t => simp [h1, h2, h3, Option.orElse]
        | none => simp [h1, h2, h3, Option.orElse]


theorem leadsWith_append (pat xs ys : List Char) (h : leadsWith pat xs = true) :
    leadsWith pat (xs ++ ys) = true := by
  induction pat generalizing xs with
  | nil => rfl
  | cons p ps ih =>
    cases xs with
    | nil => simp [leadsWith] at h
    | cons c cs =>
      simp only [leadsWith, Bool.and_eq_true] at h
      simp only [List.cons_append, leadsWith, Bool.and_eq_true]
      exact ⟨h.1, ih cs h.2⟩

theorem hasSeg_of_leadsWith (pat s : List Char) (h : leadsWith pat s = true) :
    hasSeg pat s = true := by
  cases s with
  | nil => simpa [hasSeg] using h
  | cons c cs => simp [hasSeg, h]

theorem leadsWith_nil_pat (s : List Char) : leadsWith [] s = true := by
  cases s <;> rfl

theorem hasSeg_append_right (pat xs ys : List Char) (h : hasSeg pat xs = true) :
    hasSeg pat (xs ++ ys) = true := by
  induction xs with
  | nil =>
    simp only [hasSeg] at h
    have : pat = [] := by cases pat with
      | nil => rfl
      | cons p ps => simp [leadsWith] at h
    subst this
    exact hasSeg_of_leadsWith [] ys (leadsWith_nil_pat ys)
  | cons c cs ih =>
    simp only [hasSeg, Bool.or_eq_true] at h
    rcases h with h | h
    · exact hasSeg_of_leadsWith _ _ (leadsWith_append pat (c :: cs) ys h)
    · simp only [List.cons_append, hasSeg, Bool.or_eq_true]
      exact Or.inr (ih h)

theorem hasSeg_append_left (pat xs ys : List Char) (h : hasSeg pat ys = true) :
    hasSeg pat (xs ++ ys) = true := by
  induction xs with
  | nil => exact h
  | cons c cs ih =>
    simp only [List.cons_append, hasSeg, Bool.or_eq_true]
    exact Or.inr ih

theorem hasSeg_of_middle (pat pre mid post : List Char) (h : hasSeg pat mid = true) :
    hasSeg pat (pre ++ mid ++ post) = true := by
  rw [List.append_assoc]
  exact hasSeg_append_left pat pre (mid ++ post) (hasSeg_append_right pat mid post h)

theorem leadsWith_of_append_pat (p q s : List Char)
    (h : leadsWith (p ++ q) s = true) : leadsWith p s = true := by
  induction p generalizing s with
  | nil => exact leadsWith_nil_pat s
  | cons a ps ih =>
    cases s with
    | nil => simp [leadsWith] at h
    | cons c cs =>
      simp only [List.cons_append, leadsWith, Bool.and_eq_true] at h
      simp only [leadsWith, Bool.and_eq_true]
      exact ⟨h.1, ih cs h.2⟩

theorem hasSeg_of_append_pat (p q s : List Char)
    (h : hasSeg (p ++ q) s = true) : hasSeg p s = true := by
  induction s with
  | nil =>
    simp only [hasSeg] at h ⊢
    exact leadsWith_of_append_pat p q [] h
  | cons c cs ih =>
    simp only [hasSeg, Bool.or_eq_true] at h ⊢
    rcases h with h | h
    · exact Or.inl (leadsWith_of_append_pat p q (c :: cs) h)
    · exact Or.inr (ih h)

theorem replaceListF_of_no_seg (pat : List Char) (fuel : Nat) (s : List Char)
    (h : hasSeg pat s = false) : replaceListF pat fuel s = s := by
  induction fuel generalizing s with
  | zero => cases s <;> rfl
  | succ fuel ih =>
    cases s with
    | nil => rfl
    | cons c cs =>
      simp only [hasSeg, Bool.or_eq_false_iff] at h
      rw [replaceListF, if_neg (by rintro ⟨-, hl⟩; rw [h.1] at hl; exact Bool.false_ne_true hl)]
      rw [ih cs h.2]

theorem replaceList_of_no_seg (pat s : List Char) (h : hasSeg pat s = false) :
    replaceList pat s = s :=
  replaceListF_of_no_seg pat s.length s h

theorem fence_toList : "```".toList = [btick, btick, btick] := by decide

theorem fenceJson_toList : "```json".toList = "```".toList ++ "json".toList := by decide

theorem leadCount_cons_btick (cs : List Char) : leadCount (btick :: cs) = 1 + leadCount cs := by
  simp [leadCount, List.takeWhile]
  omega

theorem leadCount_cons_ne (c : Char) (cs : List Char) (h : ¬ c = btick) :
    leadCount (c :: cs) = 0 := by
  simp [leadCount, List.takeWhile, h]

theorem leadsWith_bb_false_of_le_one (xs : List Char) (h : leadCount xs ≤ 1) :
    leadsWith [btick, btick] xs = false := by
  cases xs with
  | nil => rfl
  | cons x xs' =>
    by_cases hx : x = btick
    · subst hx
      rw [leadCount_cons_btick] at h
      have h0 : leadCount xs' = 0 := by omega
      cases xs' with
      | nil => rfl
      | cons y ys =>
        by_cases hy : y = btick
        · subst hy; rw [leadCount_cons_btick] at h0; omega
        · simp [leadsWith, Ne.symm hy]
    · simp [leadsWith, Ne.symm hx]

theorem leadCount_le_one_of_not_bb (cs : List Char)
    (h : leadsWith [btick, btick] cs = false) : leadCount cs ≤ 1 := by
  cases cs with
  | nil => simp [leadCount, List.takeWhile]
  | cons d ds =>
    by_cases hd : d = btick
    · subst hd
      cases ds with
      | nil => simp [leadCount, List.takeWhile]
      | cons e es =>
        by_cases he : e = btick
        · subst he; simp [leadsWith] at h
        · rw [leadCount_cons_btick, leadCount_cons_ne e es he]
    · rw [leadCount_cons_ne d ds hd]; omega

theorem replaceF_fence_spec (fuel : Nat) :
    ∀ s : List Char, s.length ≤ fuel →
      hasSeg [btick, btick, btick] (replaceListF [btick, btick, btick] fuel s) = false ∧
      leadCount (replaceListF [btick, btick, btick] fuel s) ≤ leadCount s := by
  induction fuel with
  | zero =>
    intro s hs
    have : s = [] := List.eq_nil_of_length_eq_zero (Nat.le_zero.mp hs)
    subst this
    exact ⟨rfl, le_refl _⟩
  | succ fuel ih =>
    intro s hs
    cases s with
    | nil => exact ⟨rfl, le_refl _⟩
    | cons c cs =>
      by_cases hc : leadsWith [btick, btick, btick] (c :: cs) = true
      · rw [replaceListF, if_pos ⟨by simp, hc⟩]
        have hcb : c = btick := by
          by_contra hne
          simp [leadsWith, Ne.symm hne] at hc
        subst hcb
        obtain ⟨cs2, rfl⟩ : ∃ cs2, cs = btick :: btick :: cs2 := by
          cases cs with
          | nil => simp [leadsWith] at hc
          | cons d ds =>
            by_cases hd : d = btick
            · subst hd
              cases ds with
              | nil => simp [leadsWith] at hc
              | cons e es =>
                by_cases he : e = btick
                · subst he; exact ⟨es, rfl⟩
                · simp [leadsWith, Ne.symm he] at hc
            · simp [leadsWith, Ne.symm hd] at hc
        have hlen : cs2.length ≤ fuel := by
          simp only [List.length_cons] at hs
          omega
        have hdrop : (btick :: btick :: btick :: cs2).drop ([btick, btick, btick] : List Char).length = cs2 := by
          simp
        rw [hdrop]
        obtain ⟨h1, h2⟩ := ih cs2 hlen
        refine ⟨h1, ?_⟩
        rw [leadCount_cons_btick, leadCount_cons_btick, leadCount_cons_btick]
        omega
      · rw [replaceListF, if_neg (by rintro ⟨-, hl⟩; exact hc hl)]
        have hlen : cs.length ≤ fuel := by
          simp only [List.length_cons] at hs
          omega
        obtain ⟨h1, h2⟩ := ih cs hlen
        have hne : leadsWith [btick, btick, btick]
            (c :: replaceListF [btick, btick, btick] fuel cs) = false := by
          by_cases hcb : c = btick
          · subst hcb
            have hbb : leadsWith [btick, btick] cs = false := by
              cases hb : leadsWith [btick, btick] cs with
              | false => rfl
              | true =>
                exfalso
                apply hc
                simp [leadsWith, hb]
            have hle : leadCount (replaceListF [btick, btick, btick] fuel cs) ≤ 1 :=
              le_trans h2 (leadCount_le_one_of_not_bb cs hbb)
            have := leadsWith_bb_false_of_le_one _ hle
            simp [leadsWith, this]
          · simp [leadsWith, Ne.symm hcb]
        constructor
        · simp [hasSeg, hne, h1]
        · by_cases hcb : c = btick
          · subst hcb
            rw [leadCount_cons_btick, leadCount_cons_btick]
            omega
          · rw [leadCount_cons_ne c _ hcb, leadCount_cons_ne c cs hcb]

theorem replaceList_fence_no_seg (s : List Char) :
    hasSeg ("```".toList) (replaceList ("```".toList) s) = false := by
  rw [fence_toList]
  exact (replaceF_fence_spec s.length s (le_refl _)).1

theorem dropWhile_decomp (p : Char → Bool) (s : List Char) :
    ∃ pre, s = pre ++ s.dropWhile p := by
  induction s with
  | nil => exact ⟨[], rfl⟩
  | cons c cs ih =>
    by_cases hc : p c
    · obtain ⟨pre, hpre⟩ := ih
      refine ⟨c :: pre, ?_⟩
      simp [List.dropWhile, hc]
      exact hpre
    · exact ⟨[], by simp [List.dropWhile, hc]⟩

theorem dropTrail_decomp (s : List Char) : ∃ post, s = dropTrail s ++ post := by
  obtain ⟨pre, hpre⟩ := dropWhile_decomp pyWsChar s.reverse
  refine ⟨pre.reverse, ?_⟩
  unfold dropTrail
  calc s = s.reverse.reverse := by simp
  _ = (pre ++ s.reverse.dropWhile pyWsChar).reverse := by rw [← hpre]
  _ = (s.reverse.dropWhile pyWsChar).reverse ++ pre.reverse := by simp

theorem stripList_decomp (s : List Char) : ∃ pre post, s = pre ++ stripList s ++ post := by
  obtain ⟨pre, hpre⟩ := dropWhile_decomp pyWsChar s
  obtain ⟨post, hpost⟩ := dropTrail_decomp (s.dropWhile pyWsChar)
  exact ⟨pre, post, by unfold stripList; rw [List.append_assoc, ← hpost]; exact hpre⟩

theorem hasSeg_false_of_decomp (pat s mid : List Char) (h : hasSeg pat s = false)
    (pre post : List Char) (hd : s = pre ++ mid ++ post) : hasSeg pat mid = false := by
  cases hm : hasSeg pat mid with
  | false => rfl
  | true =>
    exfalso
    rw [hd, hasSeg_of_middle pat pre mid post hm] at h
    simp at h

theorem head_dropWhile_not (p : Char → Bool) (s : List Char) (c : Char)
    (h : (s.dropWhile p).head? = some c) : p c = false := by
  induction s with
  | nil => simp at h
  | cons d ds ih =>
    by_cases hd : p d
    · rw [List.dropWhile_cons_of_pos hd] at h
      exact ih h
    · rw [List.dropWhile_cons_of_neg hd] at h
      simp only [List.head?_cons, Option.some.injEq] at h
      subst h
      simpa using hd

theorem dropWhile_eq_self_of_head (p : Char → Bool) (s : List Char)
    (h : ∀ c, s.head? = some c → p c = false) : s.dropWhile p = s := by
  cases s with
  | nil => rfl
  | cons c cs =>
    rw [List.dropWhile_cons_of_neg]
    simp [h c rfl]

theorem head_reverse_getLast (s : List Char) : s.reverse.head? = s.getLast? := by
  exact List.head?_reverse s

theorem dropTrail_eq_self_of_last (s : List Char)
    (h : ∀ c, s.getLast? = some c → pyWsChar c = false) : dropTrail s = s := by
  unfold dropTrail
  rw [dropWhile_eq_self_of_head pyWsChar s.reverse (fun c hc => h c (by rw [← head_reverse_getLast]; exact hc))]
  simp

theorem stripList_eq_self (s : List Char)
    (hh : ∀ c, s.head? = some c → pyWsChar c = false)
    (hl : ∀ c, s.getLast? = some c → pyWsChar c = false) : stripList s = s := by
  unfold stripList
  rw [dropWhile_eq_self_of_head pyWsChar s hh]
  exact dropTrail_eq_self_of_last s hl

theorem head_of_prefix_decomp (t post : List Char) (c : Char) (y : List Char)
    (hy : y = t ++ post) (h : t.head? = some c) : y.head? = some c := by
  subst hy
  cases t with
  | nil => simp at h
  | cons a tl => simpa using h

theorem stripList_head_not_ws (x : List Char) (c : Char)
    (h : (stripList x).head? = some c) : pyWsChar c = false := by
  obtain ⟨post, hpost⟩ := dropTrail_decomp (x.dropWhile pyWsChar)
  have hy : (x.dropWhile pyWsChar).head? = some c :=
    head_of_prefix_decomp (stripList x) post c _ hpost h
  exact head_dropWhile_not pyWsChar x c hy

theorem stripList_last_not_ws (x : List Char) (c : Char)
    (h : (stripList x).getLast? = some c) : pyWsChar c = false := by
  rw [← head_reverse_getLast] at h
  have hrev : (stripList x).reverse = (x.dropWhile pyWsChar).reverse.dropWhile pyWsChar := by
    unfold stripList dropTrail
    simp
  rw [hrev] at h
  exact head_dropWhile_not pyWsChar _ c h

theorem stripList_idem (x : List Char) : stripList (stripList x) = stripList x :=
  stripList_eq_self (stripList x) (stripList_head_not_ws x) (stripList_last_not_ws x)

theorem drop_head (s : List Char) (i : Nat) : (s.drop i).head? = s[i]? := by
  induction s generalizing i with
  | nil => simp
  | cons c cs ih =>
    cases i with
    | zero => simp
    | succ j => simpa using ih j

theorem idxOfChar_spec (c : Char) (s : List Char) (i : Nat)
    (h : idxOfChar c s = some i) : s[i]? = some c := by
  induction s generalizing i with
  | nil => simp [idxOfChar] at h
  | cons d ds ih =>
    by_cases hd : d = c
    · subst hd
      rw [idxOfChar, if_pos rfl] at h
      simp only [Option.some.injEq] at h
      subst h
      simp
    · rw [idxOfChar, if_neg hd] at h
      rcases hj : idxOfChar c ds with _ | j
      · rw [hj] at h; simp at h
      · rw [hj] at h
        simp only [Option.map_some', Option.some.injEq] at h
        subst h
        simpa using ih j hj

theorem getElem?_lt {α : Type} (l : List α) (i : Nat) (a : α) (h : l[i]? = some a) :
    i < l.length := by
  by_contra hge
  rw [List.getElem?_eq_none (by omega)] at h
  simp at h

theorem rIdxOfChar_spec (c : Char) (s : List Char) (en : Nat)
    (h : rIdxOfChar c s = some en) : en < s.length ∧ s[en]? = some c := by
  unfold rIdxOfChar at h
  rcases hk : idxOfChar c s.reverse with _ | k
  · rw [hk] at h; simp at h
  · rw [hk] at h
    simp only [Option.map_some', Option.some.injEq] at h
    have hsp := idxOfChar_spec c s.reverse k hk
    have hklt : k < s.reverse.length := getElem?_lt _ _ _ hsp
    simp only [List.length_reverse] at hklt
    have hrev : s.reverse[k]? = s[s.length - 1 - k]? := by
      rw [List.getElem?_reverse (by simpa using hklt)]
    subst h
    constructor
    · omega
    · rw [← hrev]; exact hsp

theorem take_getLast (s : List Char) (en : Nat) (c : Char) (h : s[en]? = some c) :
    (s.take (en + 1)).getLast? = some c := by
  rw [List.take_succ, h]
  simp

theorem getLast_cons_ne_nil (c : Char) (cs : List Char) (h : cs ≠ []) :
    (c :: cs).getLast? = cs.getLast? := by
  cases cs with
  | nil => exact absurd rfl h
  | cons d ds => rfl

theorem drop_getLast (l : List Char) (n : Nat) (h : l.drop n ≠ []) :
    (l.drop n).getLast? = l.getLast? := by
  induction n generalizing l with
  | zero => rfl
  | succ n ih =>
    cases l with
    | nil => simp at h
    | cons c cs =>
      simp only [List.drop_succ_cons] at h ⊢
      rw [ih cs h, getLast_cons_ne_nil c cs]
      intro hnil
      subst hnil
      simp at h

theorem walkDepth_spec (cs : List Char) :
    ∀ depth acc m, walkDepth cs depth acc = some m →
      ∃ taken rest, m = acc.reverse ++ taken ∧ cs = taken ++ rest ∧ taken ≠ [] ∧
        taken.getLast? = some rbrace := by
  induction cs with
  | nil => intro depth acc m h; simp [walkDepth] at h
  | cons c cs ih =>
    intro depth acc m h
    rw [walkDepth] at h
    by_cases hc1 : c = lbrace
    · rw [if_pos hc1] at h
      by_cases hd : depth = 1
      · rw [if_pos hd] at h
        obtain ⟨taken, rest, hm, hcs, hne, hlast⟩ := ih 2 (c :: acc) m h
        refine ⟨c :: taken, rest, ?_, by simpa using hcs, by simp, ?_⟩
        · rw [hm]; simp
        · rw [getLast_cons_ne_nil c taken hne]; exact hlast
      · rw [if_neg hd] at h; simp at h
    · rw [if_neg hc1] at h
      by_cases hc2 : c = rbrace
      · rw [if_pos hc2] at h
        by_cases hd : depth = 2
        · rw [if_pos hd] at h
          obtain ⟨taken, rest, hm, hcs, hne, hlast⟩ := ih 1 (c :: acc) m h
          refine ⟨c :: taken, rest, ?_, by simpa using hcs, by simp, ?_⟩
          · rw [hm]; simp
          · rw [getLast_cons_ne_nil c taken hne]; exact hlast
        · rw [if_neg hd] at h
          simp only [Option.some.injEq] at h
          refine ⟨[c], cs, ?_, rfl, by simp, by simp [hc2]⟩
          rw [← h]; simp
      · rw [if_neg hc2] at h
        obtain ⟨taken, rest, hm, hcs, hne, hlast⟩ := ih depth (c :: acc) m h
        refine ⟨c :: taken, rest, ?_, by simpa using hcs, by simp, ?_⟩
        · rw [hm]; simp
        · rw [getLast_cons_ne_nil c taken hne]; exact hlast

theorem findCandidatesF_spec (fuel : Nat) :
    ∀ s m, m ∈ findCandidatesF fuel s →
      (∃ pre post, s = pre ++ m ++ post) ∧ m.head? = some lbrace ∧
        m.getLast? = some rbrace := by
  induction fuel with
  | zero =>
    intro s m h
    cases s <;> simp [findCandidatesF] at h
  | succ fuel ih =>
    intro s m h
    cases s with
    | nil => simp [findCandidatesF] at h
    | cons c cs =>
      rw [findCandidatesF] at h
      by_cases hc : c = lbrace
      · rw [if_pos hc] at h
        rcases hw : walkDepth cs 1 [c] with _ | m'
        · rw [hw] at h
          obtain ⟨⟨pre, post, hdec⟩, hh, hl⟩ := ih cs m h
          exact ⟨⟨c :: pre, post, by rw [hdec]; simp⟩, hh, hl⟩
        · rw [hw] at h
          obtain ⟨taken, rest, hm, hcs, hne, hlast⟩ := walkDepth_spec cs 1 [c] m' hw
          simp only [List.reverse_cons, List.reverse_nil, List.nil_append,
            List.singleton_append] at hm
          rcases List.mem_cons.mp h with hm0 | hmem
          · subst hm0
            rw [hm]
            refine ⟨⟨[], rest, by rw [hcs]; simp⟩, by simp [hc], ?_⟩
            rw [getLast_cons_ne_nil c taken hne]
            exact hlast
          · have hdrop : cs.drop (m'.length - 1) = rest := by
              rw [hm, hcs]
              simp only [List.length_cons, Nat.add_sub_cancel]
              exact List.drop_left taken rest
            rw [hdrop] at hmem
            obtain ⟨⟨pre, post, hdec⟩, hh, hl⟩ := ih rest m hmem
            refine ⟨⟨c :: taken ++ pre, post, ?_⟩, hh, hl⟩
            rw [hcs, hdec]
            simp
      · rw [if_neg hc] at h
        obtain ⟨⟨pre, post, hdec⟩, hh, hl⟩ := ih cs m h
        exact ⟨⟨c :: pre, post, by rw [hdec]; simp⟩, hh, hl⟩

theorem findCandidates_spec (s m : List Char) (h : m ∈ findCandidates s) :
    (∃ pre post, s = pre ++ m ++ post) ∧ m.head? = some lbrace ∧
      m.getLast? = some rbrace :=
  findCandidatesF_spec s.length s m h

theorem json_loadsL_nil : json_loadsL ([] : List Char) = none := rfl

theorem strip_fences_no_fence (x : List Char) :
    hasSeg ("```".toList) (strip_fences x) = false := by
  unfold strip_fences
  have h1 : hasSeg ("```".toList)
      (replaceList ("```".toList) (replaceList ("```json".toList) x)) = false :=
    replaceList_fence_no_seg _
  obtain ⟨pre, post, hdec⟩ :=
    stripList_decomp (replaceList ("```".toList) (replaceList ("```json".toList) x))
  exact hasSeg_false_of_decomp _ _ _ h1 pre post hdec

theorem strip_fences_eq_self (t : List Char)
    (h1 : hasSeg ("```".toList) t = false) (h2 : stripList t = t) :
    strip_fences t = t := by
  have hfj : hasSeg ("```json".toList) t = false := by
    cases hm : hasSeg ("```json".toList) t with
    | false => rfl
    | true =>
      exfalso
      rw [fenceJson_toList] at hm
      rw [hasSeg_of_append_pat _ _ t hm] at h1
      simp at h1
  unfold strip_fences
  rw [replaceList_of_no_seg _ _ hfj, replaceList_of_no_seg _ _ h1, h2]

theorem stripList_eq_self_of_braces (t : List Char) (hh : t.head? = some lbrace)
    (hl : t.getLast? = some rbrace) : stripList t = t := by
  refine stripList_eq_self t ?_ ?_
  · intro c hc
    rw [hh] at hc
    simp only [Option.some.injEq] at hc
    subst hc
    decide
  · intro c hc
    rw [hl] at hc
    simp only [Option.some.injEq] at hc
    subst hc
    decide

theorem brace_delimited_clean (r t : List Char) (hr : hasSeg ("```".toList) r = false)
    (pre post : List Char) (hdec : r = pre ++ t ++ post) (hh : t.head? = some lbrace)
    (hl : t.getLast? = some rbrace) : strip_fences t = t :=
  strip_fences_eq_self t (hasSeg_false_of_decomp _ r t hr pre post hdec)
    (stripList_eq_self_of_braces t hh hl)

theorem cleanL_success (raw t : List Char) (h : cleanL raw = some t) :
    (json_loadsL t).isSome = true ∧ strip_fences t = t := by
  unfold cleanL at h
  by_cases hraw : raw = []
  · rw [if_pos hraw] at h; simp at h
  · rw [if_neg hraw] at h
    by_cases h1 : (json_loadsL (strip_fences raw)).isSome
    · rw [if_pos h1] at h
      simp only [Option.some.injEq] at h
      subst h
      refine ⟨h1, ?_⟩
      apply strip_fences_eq_self
      · exact strip_fences_no_fence raw
      · unfold strip_fences
        exact stripList_idem _
    · rw [if_neg h1] at h
      have hscan : ∀ (hfind : (findCandidates (strip_fences raw)).find?
          (fun m => (json_loadsL m).isSome) = some t),
          (json_loadsL t).isSome = true ∧ strip_fences t = t := by
        intro hfind
        have hmem := List.mem_of_find?_eq_some hfind
        have hp := List.find?_some hfind
        obtain ⟨⟨pre, post, hdec⟩, hh, hl⟩ := findCandidates_spec _ t hmem
        exact ⟨hp, brace_delimited_clean _ t (strip_fences_no_fence raw) pre post hdec hh hl⟩
      rcases hx : idxOfChar lbrace (strip_fences raw) with _ | st
      · rw [hx] at h
        exact hscan h
      · rcases hy : rIdxOfChar rbrace (strip_fences raw) with _ | en
        · rw [hx, hy] at h
          exact hscan h
        · rw [hx, hy] at h
          dsimp only at h
          by_cases h2 : (json_loadsL (((strip_fences raw).take (en + 1)).drop st)).isSome
          · rw [if_pos h2] at h
            dsimp only at h
            simp only [Option.some.injEq] at h
            subst h
            refine ⟨h2, ?_⟩
            have htnil : ((strip_fences raw).take (en + 1)).drop st ≠ [] := by
              intro hnil
              rw [hnil, json_loadsL_nil] at h2
              simp at h2
            have hstlt : st < ((strip_fences raw).take (en + 1)).length := by
              by_contra hge
              exact htnil (List.drop_eq_nil_of_le (by omega))
            obtain ⟨hen, hren⟩ := rIdxOfChar_spec rbrace (strip_fences raw) en hy
            have hh : (((strip_fences raw).take (en + 1)).drop st).head? = some lbrace := by
              rw [drop_head]
              have hlt : st < en + 1 := by
                have := List.length_take (en + 1) (strip_fences raw)
                omega
              rw [List.getElem?_take, if_pos hlt]
              exact idxOfChar_spec lbrace (strip_fences raw) st hx
            have hl : (((strip_fences raw).take (en + 1)).drop st).getLast? = some rbrace := by
              rw [drop_getLast _ _ htnil]
              exact take_getLast _ en rbrace hren
            refine brace_delimited_clean (strip_fences raw) _ (strip_fences_no_fence raw)
              (((strip_fences raw).take (en + 1)).take st) ((strip_fences raw).drop (en + 1))
              ?_ hh hl
            rw [List.take_append_drop st ((strip_fences raw).take (en + 1)),
              List.take_append_drop (en + 1) (strip_fences raw)]
          · rw [if_neg h2] at h
            dsimp only at h
            exact hscan h

/-- C8, amended.  The extractor is idempotent on its own raw output: if
`clean_json_response` succeeds with output `t`, re-running it directly on
`t` succeeds and returns `t` unchanged (hence the same parsed object),
and `t` parses.  Re-serialisation is what breaks the claimed property —
see the counterexample. -/
theorem c8_idempotent_on_output (s t : String) (h : clean_json_response s = some t) :
    clean_json_response t = some t ∧ (json_loads t).isSome = true := by
  unfold clean_json_response at h
  rcases hc : cleanL s.toList with _ | l
  · rw [hc] at h; simp at h
  · rw [hc] at h
    simp only [Option.map_some', Option.some.injEq] at h
    obtain ⟨hload, hsf⟩ := cleanL_success s.toList l hc
    have htl : t.toList = l := by rw [← h]; exact rfl
    have hlnil : l ≠ [] := by
      intro hnil
      rw [hnil, json_loadsL_nil] at hload
      simp at hload
    constructor
    · unfold clean_json_response cleanL
      rw [htl, if_neg hlnil, hsf, if_pos hload]
      simp only [Option.map_some', Option.some.injEq]
      exact h
    · unfold json_loads
      rw [htl]
      exact hload

/-- C8, counterexample.  The input `\x7b"a": "\u0060\u0060\u0060"\x7d`
extracts successfully and parses to an object whose value is three
backticks; `json.dumps` of that object contains a literal ``` fence
marker, so re-running the extractor on the re-serialised output strips it
and yields a different object — re-extraction after re-serialisation is
not the identity. -/
theorem c8_counterexample :
    clean_json_response ("\x7b" ++ "\"a\": \"\\u0060\\u0060\\u0060\"" ++ "\x7d") =
      some ("\x7b" ++ "\"a\": \"\\u0060\\u0060\\u0060\"" ++ "\x7d") ∧
    json_loads ("\x7b" ++ "\"a\": \"\\u0060\\u0060\\u0060\"" ++ "\x7d") =
      some (Json.obj (.cons "a" (.str "```") .nil)) ∧
    json_dumps (Json.obj (.cons "a" (.str "```") .nil)) =
      ("\x7b" ++ "\"a\": \"```\"" ++ "\x7d") ∧
    clean_json_response ("\x7b" ++ "\"a\": \"```\"" ++ "\x7d") =
      some ("\x7b" ++ "\"a\": \"\"" ++ "\x7d") ∧
    json_loads ("\x7b" ++ "\"a\": \"\"" ++ "\x7d") =
      some (Json.obj (.cons "a" (.str "") .nil)) ∧
    Json.obj (.cons "a" (.str "") .nil) ≠ Json.obj (.cons "a" (.str "```") .nil) := by
  refine ⟨by decide, by decide, by decide, by decide, by decide, by decide⟩

theorem c8_idem_witness :
    clean_json_response ("```json " ++ ("\x7b" ++ "\"a\": 1" ++ "\x7d") ++ " ```") =
      some ("\x7b" ++ "\"a\": 1" ++ "\x7d") ∧
    (clean_json_response ("\x7b" ++ "\"a\": 1" ++ "\x7d") =
       some ("\x7b" ++ "\"a\": 1" ++ "\x7d") ∧
     (json_loads ("\x7b" ++ "\"a\": 1" ++ "\x7d")).isSome = true) :=
  ⟨by decide,
    c8_idempotent_on_output ("```json " ++ ("\x7b" ++ "\"a\": 1" ++ "\x7d") ++ " ```")
      ("\x7b" ++ "\"a\": 1" ++ "\x7d") (by decide)⟩

end IncidentParser
